import Mathlib

/-!
Verification of the anyser serializer (src/anyser/init) against its
specification.  The embedding models Python values with the inductive
type Value below: Python strings are lists of characters, floats are kept
as opaque scalar tokens (no claim computes with them), application objects
of a custom class are modelled by the constructor Value.custom carrying a
class tag and a field list, and Python dicts are ordered association
lists (CPython dicts preserve insertion order; the inputs exercised by the
claims never make two transformed keys collide, so the list model agrees
with the dict model on them).  Value.none models the Python None object.

Codec encode/decode functions are arbitrary Lean functions Value → Value;
an encode returning Value.none models a Python encode returning None.
Because a codec encode may return values of registered kinds again, the
source's to_primitive can recurse forever; the embedding therefore gives
to_primitive explicit fuel (every recursive call consumes one unit) and
returns Option.none when the fuel runs out.  from_primitive always
terminates structurally and is embedded as a total function returning
Except: the spec's MalformedTagError (ValueError in the source), the
spec's UnknownCodecError (KeyError in the source, raised by the by_name
lookup; a dict or list tag value would raise TypeError, folded into the
same constructor here), the KeyError for a missing value key, and the
AttributeError raised when a decoded mapping key is not a string.
-/

/-- The exact runtime type of a value, as used by to_primitive's
type(obj) dispatch.  tCustom names an application-defined class. -/
inductive TypeTag where
  | tStr : TypeTag
  | tInt : TypeTag
  | tFloat : TypeTag
  | tBool : TypeTag
  | tNone : TypeTag
  | tList : TypeTag
  | tDict : TypeTag
  | tCustom : List Char → TypeTag
deriving DecidableEq

/-- Python values as seen by the serializer. -/
inductive Value where
  | str : List Char → Value
  | int : Int → Value
  | float : List Char → Value
  | bool : Bool → Value
  | none : Value
  | list : List Value → Value
  | dict : List (Value × Value) → Value
  | custom : List Char → List Value → Value

/-- type(obj) of the source. -/
def typeOf : Value → TypeTag
  | .str _ => .tStr
  | .int _ => .tInt
  | .float _ => .tFloat
  | .bool _ => .tBool
  | .none => .tNone
  | .list _ => .tList
  | .dict _ => .tDict
  | .custom k _ => .tCustom k

def chars (s : String) : List Char := s.data

/-- Python str.startswith with a single-character argument. -/
def startsC (s : List Char) (c : Char) : Bool :=
  match s with
  | [] => false
  | d :: _ => d == c

/-- A word character of the regex class backslash-w.  Python's re also
counts non-ASCII unicode word characters; the names exercised here are
ASCII. -/
def isWordChar (c : Char) : Bool := c.isAlphanum || c == '_'

def tag_char : Char := '$'

def escape_char : Char := '/'

/-- The reserved type key, built as type_char + 't' in the source. -/
def type_key : List Char := [tag_char, 't']

/-- The reserved value key 'v'. -/
def value_key : List Char := ['v']

mutual
/-- Python == on values (structural deep equality). -/
def beqV : Value → Value → Bool
  | .str a, .str b => a == b
  | .int a, .int b => a == b
  | .float a, .float b => a == b
  | .bool a, .bool b => a == b
  | .none, .none => true
  | .list a, .list b => beqL a b
  | .dict a, .dict b => beqE a b
  | .custom j a, .custom k b => j == k && beqL a b
  | _, _ => false

def beqL : List Value → List Value → Bool
  | [], [] => true
  | a :: as2, b :: bs => beqV a b && beqL as2 bs
  | _, _ => false

def beqE : List (Value × Value) → List (Value × Value) → Bool
  | [], [] => true
  | (j, v) :: as2, (k, w) :: bs => beqV j k && beqV v w && beqE as2 bs
  | _, _ => false
end

/-- Dict lookup (obj[key] / key in obj) on the association-list model. -/
def lookupD : List (Value × Value) → Value → Option Value
  | [], _ => Option.none
  | (k, v) :: rest, key => if beqV k key then some v else lookupD rest key

mutual
/-- repr() of a value, used because Python %s-formatting stringifies a
non-string codec output used as a mapping key.  The string-escaping
rules and the address part of the default object repr are elided: no
claim exercises repr of a non-scalar or exotic key payload. -/
def pyRepr : Value → List Char
  | .str s => '\'' :: s ++ ['\'']
  | .int n => (toString n).data
  | .float f => f
  | .bool true => chars "True"
  | .bool false => chars "False"
  | .none => chars "None"
  | .list xs => '[' :: (chars ", ").intercalate (pyReprL xs) ++ [']']
  | .dict kvs => '\x7b' :: (chars ", ").intercalate (pyReprE kvs) ++ ['\x7d']
  | .custom k _ => '<' :: k ++ chars " object>"

def pyReprL : List Value → List (List Char)
  | [] => []
  | x :: xs => pyRepr x :: pyReprL xs

def pyReprE : List (Value × Value) → List (List Char)
  | [] => []
  | (k, v) :: rest => (pyRepr k ++ chars ": " ++ pyRepr v) :: pyReprE rest
end

/-- str() of a value: like repr() except on strings. -/
def pyStr : Value → List Char
  | .str s => s
  | v => pyRepr v

/-- A conversion rule: name, exact kind, encode (to_primitive) and decode
(from_primitive).  Encode returning Value.none models returning None. -/
structure Codec where
  name : List Char
  kind : TypeTag
  to_primitive : Value → Value
  from_primitive : Value → Value

/-- The serializer: an ordered codec list plus the opaque text
encoder/decoder pair. -/
structure Serializer where
  codecs : List Codec
  encoder : Value → List Char
  decoder : List Char → Value

/-- The by-kind index.  The source builds a dict by comprehension, so a
later codec with the same kind overwrites an earlier one: the lookup
finds the last matching codec. -/
def by_kind (S : Serializer) (t : TypeTag) : Option (List Char × (Value → Value)) :=
  (S.codecs.reverse.find? (fun c => c.kind == t)).map (fun c => (c.name, c.to_primitive))

/-- The by-name index, with the same later-entry-wins behaviour. -/
def by_name (S : Serializer) (n : List Char) : Option (Value → Value) :=
  (S.codecs.reverse.find? (fun c => c.name == n)).map (fun c => c.from_primitive)

/-- The compiled tag pattern: caret, tag marker, one-or-more word
characters as the name, then optionally a colon and a greedy one-or-more
run of newline-free characters as the body.  re.match anchors only at
the start, so trailing unmatched characters are ignored, and the dot of
the body does not cross a newline. -/
def typed_string_match (s : List Char) : Option (List Char × Option (List Char)) :=
  match s with
  | '$' :: rest =>
    let name := rest.takeWhile isWordChar
    if name = [] then Option.none
    else
      match rest.dropWhile isWordChar with
      | ':' :: b =>
        let body := b.takeWhile (fun c => c != '\n')
        if body = [] then some (name, Option.none) else some (name, some body)
      | _ => some (name, Option.none)
  | _ => Option.none

/-- The regex groups deliver the body as None when the colon group did
not participate; the decode function receives Python None then. -/
def optBody : Option (List Char) → Value
  | Option.none => Value.none
  | some b => Value.str b

/-- Wrap a recursively transformed codec output: a string becomes the
tagged scalar, anything else the tagged compound mapping. -/
def tagWrap (name : List Char) : Value → Value
  | .str s => .str (tag_char :: name ++ ':' :: s)
  | p2 => .dict [(.str type_key, .str name), (.str value_key, p2)]

/-- filter_dict_keys of the encode path: escape a marker-prefixed string
key, else encode a registered-kind key into forced tagged-scalar string
form (%s-stringifying the raw encode output), else pass the key through. -/
def filter_dict_keys_enc (S : Serializer) (key : Value) : Value :=
  match key with
  | .str s =>
    if startsC s tag_char || startsC s escape_char then .str (escape_char :: s)
    else
      match by_kind S .tStr with
      | some (name, enc) => .str (tag_char :: name ++ ':' :: pyStr (enc (.str s)))
      | Option.none => .str s
  | k =>
    match by_kind S (typeOf k) with
    | some (name, enc) => .str (tag_char :: name ++ ':' :: pyStr (enc k))
    | Option.none => k

/-- The non-container branches of the encode walk: the by-kind codec
lookup (encode, recursively transform a non-None result, tag it), then
marker-string escaping, then pass-through. -/
def toPrimLeaf (S : Serializer) (rec : Value → Option Value) (v : Value) : Option Value :=
  match by_kind S (typeOf v) with
  | some (name, enc) =>
    match enc v with
    | Value.none => some (.str (tag_char :: name))
    | p => (rec p).map (tagWrap name)
  | Option.none =>
    match v with
    | .str s =>
      if startsC s tag_char || startsC s escape_char then some (.str (escape_char :: s))
      else some (.str s)
    | v2 => some v2

/-- The dict comprehension of the encode walk: transform each value with
rec and each key with the key filter, keeping entry order.  rec failing
(out of fuel) fails the whole mapping. -/
def toPrimEntries (rec : Value → Option Value) (fk : Value → Value) :
    List (Value × Value) → Option (List (Value × Value))
  | [] => some []
  | (k, v) :: rest => do
    let v2 ← rec v
    let rest2 ← toPrimEntries rec fk rest
    some ((fk k, v2) :: rest2)

/-- The list map of the encode walk. -/
def toPrimList (rec : Value → Option Value) : List Value → Option (List Value)
  | [] => some []
  | x :: xs => do
    let v ← rec x
    let rest ← toPrimList rec xs
    some (v :: rest)

/-- One unfolding of the encode walk, with the recursive call abstracted
as rec.  Branch order follows the source: dict, list, the exact-int fast
path, then the leaf handling above. -/
def toPrimStep (S : Serializer) (rec : Value → Option Value) : Value → Option Value
  | .dict kvs => (toPrimEntries rec (filter_dict_keys_enc S) kvs).map Value.dict
  | .list xs => (toPrimList rec xs).map Value.list
  | .int n => some (.int n)
  | v => toPrimLeaf S rec v

/-- Serializer.to_primitive with fuel; Option.none models running out of
fuel (the source can recurse forever when a codec encode returns a value
of a registered kind again). -/
def to_primitive (S : Serializer) : Nat → Value → Option Value
  | 0, _ => Option.none
  | fuel + 1, v => toPrimStep S (to_primitive S fuel) v

/-- Decode-path errors.  The source raises ValueError for a malformed
tag (the spec's MalformedTagError), KeyError for an unknown codec name
(the spec's UnknownCodecError) and for a missing value key, and
AttributeError when startswith is called on a non-string mapping key. -/
inductive DecErr where
  | malformedTag : List Char → DecErr
  | unknownCodec : Value → DecErr
  | keyError : List Char → DecErr
  | attrError : Value → DecErr

/-- filter_dict_keys of the decode path: strip one escape marker, parse
a tag-marker key through the pattern and decode it, else pass through.
A non-string key has no startswith attribute. -/
def filter_dict_keys_dec (S : Serializer) (key : Value) : Except DecErr Value :=
  match key with
  | .str s =>
    if startsC s escape_char then .ok (.str (s.drop 1))
    else if startsC s tag_char then
      match typed_string_match s with
      | some (n, body) =>
        match by_name S n with
        | some dec => .ok (dec (optBody body))
        | Option.none => .error (.unknownCodec (.str n))
      | Option.none => .error (.malformedTag s)
    else .ok (.str s)
  | k => .error (.attrError k)

mutual
/-- Serializer.from_primitive.  A mapping containing the type key is a
tagged compound: its name is looked up before the value key is read and
before the payload is recursively decoded.  Other mappings are rebuilt
entry by entry in order, sequences element by element, and strings are
unescaped, tag-parsed, or passed through. -/
def from_primitive (S : Serializer) : Value → Except DecErr Value
  | .dict kvs =>
    match lookupD kvs (.str type_key) with
    | some tpe =>
      match tpe with
      | .str n =>
        match by_name S n with
        | some dec =>
          match h2 : lookupD kvs (.str value_key) with
          | some payload => (from_primitive S payload).map dec
          | Option.none => .error (.keyError value_key)
        | Option.none => .error (.unknownCodec (.str n))
      | tpe2 => .error (.unknownCodec tpe2)
    | Option.none => (fromPrimEntries S kvs).map Value.dict
  | .list xs => (fromPrimList S xs).map Value.list
  | .str s =>
    if startsC s escape_char then .ok (.str (s.drop 1))
    else if startsC s tag_char then
      match typed_string_match s with
      | some (n, body) =>
        match by_name S n with
        | some dec => .ok (dec (optBody body))
        | Option.none => .error (.unknownCodec (.str n))
      | Option.none => .error (.malformedTag s)
    else .ok (.str s)
  | v => .ok v
termination_by v => sizeOf v
decreasing_by
  all_goals simp_wf
  all_goals try
    (have hlem : ∀ (kvs2 : List (Value × Value)) (key v2 : Value),
        lookupD kvs2 key = some v2 → sizeOf v2 < sizeOf kvs2 := by
      intro kvs2 key v2
      induction kvs2 with
      | nil => intro hcontra; simp [lookupD] at hcontra
      | cons kv rest ih =>
        intro hstep
        obtain ⟨k, w⟩ := kv
        simp only [lookupD] at hstep
        split at hstep
        · cases hstep; simp; omega
        · have := ih hstep; simp; omega
     have := hlem _ _ _ h2
     omega)
  all_goals omega

def fromPrimList (S : Serializer) : List Value → Except DecErr (List Value)
  | [] => .ok []
  | x :: xs => do
    let v ← from_primitive S x
    let rest ← fromPrimList S xs
    .ok (v :: rest)
termination_by xs => sizeOf xs
decreasing_by all_goals (simp_wf; try omega)

def fromPrimEntries (S : Serializer) : List (Value × Value) → Except DecErr (List (Value × Value))
  | [] => .ok []
  | (k, v) :: rest => do
    let k2 ← filter_dict_keys_dec S k
    let v2 ← from_primitive S v
    let rest2 ← fromPrimEntries S rest
    .ok ((k2, v2) :: rest2)
termination_by kvs => sizeOf kvs
decreasing_by all_goals (simp_wf; try omega)
end

/-- dumps = encoder after to_primitive. -/
def dumps (S : Serializer) (fuel : Nat) (v : Value) : Option (List Char) :=
  (to_primitive S fuel v).map S.encoder

/-- loads = from_primitive after decoder. -/
def loads (S : Serializer) (s : List Char) : Except DecErr Value :=
  from_primitive S (S.decoder s)

/-- A valid codec name for the tag syntax: nonempty, all word
characters, so the pattern's name group recovers it exactly. -/
def wordName (n : List Char) : Bool := !n.isEmpty && n.all isWordChar

/-- A codec encode output that survives the tagged-scalar path.  When it
is a string it must be nonempty, newline-free and free of a leading
marker, because a scalar tag body is handed to the decode function
exactly as parsed, with no unescaping pass; and it must not be a custom
object at top level, because a registered custom there would be
transformed into a tag string that reaches the outer decode unparsed. -/
def safeBody : Value → Bool
  | .str s =>
    !s.isEmpty && !startsC s tag_char && !startsC s escape_char &&
      s.all (fun c => c != '\n')
  | .custom _ _ => false
  | _ => true

/-- No scalar runtime kind is registered: strings, floats, booleans and
None stay unregistered (the integer kind never reaches the registry
because of the fast path, and container kinds never reach it because the
container branches run first). -/
def ScalarsUnregistered (S : Serializer) : Prop :=
  by_kind S .tStr = Option.none ∧ by_kind S .tFloat = Option.none ∧
  by_kind S .tBool = Option.none ∧ by_kind S .tNone = Option.none

/-- The round-trip claim's vocabulary: values built from registered
kinds, unregistered scalars, and arbitrarily nested string-keyed
mappings and sequences thereof. -/
inductive Reachable (S : Serializer) : Value → Prop where
  | str (s : List Char) : Reachable S (.str s)
  | int (n : Int) : Reachable S (.int n)
  | float (f : List Char) : Reachable S (.float f)
  | bool (b : Bool) : Reachable S (.bool b)
  | none : Reachable S Value.none
  | registered (v : Value) : by_kind S (typeOf v) ≠ Option.none → Reachable S v
  | list (xs : List Value) : (∀ x ∈ xs, Reachable S x) → Reachable S (.list xs)
  | dict (kvs : List (Value × Value)) :
      (∀ kv ∈ kvs, ∃ s, kv.1 = Value.str s) →
      (∀ kv ∈ kvs, Reachable S kv.2) →
      Reachable S (.dict kvs)

/-- The round-trip claim's reading of codec correctness: for every
registered kind, decode after encode is the identity on values of that
kind, and encode after decode is the identity on encode's range. -/
def MutualInverses (S : Serializer) : Prop :=
  ∀ t name enc, by_kind S t = some (name, enc) →
    ∃ dec, by_name S name = some dec ∧
      (∀ v, typeOf v = t → dec (enc v) = v) ∧
      (∀ v, typeOf v = t → enc (dec (enc v)) = enc v)

/-- The vocabulary under which the round trip is provable.  Registered
kinds are custom classes; each registered custom node carries a
word-shaped name, a coherent decode, the inverse law at that node, a
safe top level for its encode output, and (when the output is not None)
the same discipline recursively for the encode output. -/
inductive Good (S : Serializer) : Value → Prop where
  | str (s : List Char) : Good S (.str s)
  | int (n : Int) : Good S (.int n)
  | float (f : List Char) : Good S (.float f)
  | bool (b : Bool) : Good S (.bool b)
  | none : Good S Value.none
  | unregCustom (k : List Char) (fs : List Value) :
      by_kind S (.tCustom k) = Option.none → Good S (.custom k fs)
  | registered (k : List Char) (fs : List Value) (name : List Char)
      (enc dec : Value → Value) :
      by_kind S (.tCustom k) = some (name, enc) →
      wordName name = true →
      by_name S name = some dec →
      dec (enc (.custom k fs)) = .custom k fs →
      safeBody (enc (.custom k fs)) = true →
      (enc (.custom k fs) ≠ Value.none → Good S (enc (.custom k fs))) →
      Good S (.custom k fs)
  | list (xs : List Value) : (∀ x ∈ xs, Good S x) → Good S (.list xs)
  | dict (kvs : List (Value × Value)) :
      (∀ kv ∈ kvs, ∃ s, kv.1 = Value.str s) →
      (∀ kv ∈ kvs, Good S kv.2) →
      Good S (.dict kvs)

/-- A serializer with no codecs; the opaque text encoder/decoder pair is
irrelevant to the transformer claims. -/
def Semp : Serializer := ⟨[], fun _ => [], fun _ => Value.none⟩

/-- The datetime-style codec of the test suite, over an opaque datetime
object: encode yields the isoformat text, decode parses it back. -/
def dtCodec : Codec :=
  ⟨chars "dt", .tCustom (chars "datetime"),
   fun _ => .str (chars "2019-02-03T01:23:45.012300"),
   fun p => match p with
     | .str b => .custom (chars "datetime") [.str b]
     | p => p⟩

def Sdt : Serializer := ⟨[dtCodec], fun _ => [], fun _ => Value.none⟩

/-- The MyType codec of the test suite: the field list as a primitive
sequence and back. -/
def myCodec : Codec :=
  ⟨chars "mytype", .tCustom (chars "MyType"),
   fun v => match v with | .custom _ fs => .list fs | v => v,
   fun p => match p with | .list fs => .custom (chars "MyType") fs | p => p⟩

def Smy : Serializer := ⟨[myCodec], fun _ => [], fun _ => Value.none⟩

/-- MyType('hello', 3.14, ['world']) of the test suite. -/
def myObj : Value :=
  .custom (chars "MyType")
    [.str (chars "hello"), .float (chars "3.14"), .list [.str (chars "world")]]

/-- A pure-marker codec whose encode returns None. -/
def markerCodec : Codec :=
  ⟨chars "m", .tCustom (chars "M"),
   fun _ => Value.none, fun _ => .custom (chars "M") []⟩

def Smark : Serializer := ⟨[markerCodec], fun _ => [], fun _ => Value.none⟩

/-- An integer codec: unreachable for values (fast path) but consulted
for mapping keys. -/
def intCodec : Codec :=
  ⟨chars "i", .tInt,
   fun v => match v with | .int n => .str (toString n).data | v => v,
   fun p => p⟩

def Sint : Serializer := ⟨[intCodec], fun _ => [], fun _ => Value.none⟩

/-- The codec of the round-trip counterexample.  Encode and decode are
mutually inverse on kind K: an empty field list becomes the empty
string, a non-empty field list becomes the field list itself.  The empty
string is a legal primitive, but the emitted tagged scalar then has an
empty body, which the tag pattern reads back as an absent body. -/
def kCodec : Codec :=
  ⟨chars "c", .tCustom (chars "K"),
   fun v => match v with
     | .custom _ [] => .str []
     | .custom _ fs => .list fs
     | v => v,
   fun p => match p with
     | .str [] => .custom (chars "K") []
     | .list fs => .custom (chars "K") fs
     | p => p⟩

def SK : Serializer := ⟨[kCodec], fun _ => [], fun _ => Value.none⟩

/-- Two codecs sharing both their name and their kind, to exercise the
duplicate-registration policy. -/
def codecA : Codec :=
  ⟨chars "n", .tCustom (chars "T"), fun _ => .str (chars "a"), fun _ => Value.none⟩

def codecB : Codec :=
  ⟨chars "n", .tCustom (chars "T"), fun _ => .str (chars "b"), fun _ => .int 0⟩

def Sdup : Serializer := ⟨[codecA, codecB], fun _ => [], fun _ => Value.none⟩

theorem takeWhile_append_all {p : Char → Bool} {a b : List Char}
    (h : ∀ c ∈ a, p c = true) : (a ++ b).takeWhile p = a ++ b.takeWhile p := by
  induction a with
  | nil => simp
  | cons c cs ih =>
    have hc : p c = true := h c (by simp)
    have ih2 := ih (fun d hd => h d (by simp [hd]))
    simp [List.takeWhile_cons, hc, ih2]

theorem dropWhile_append_all {p : Char → Bool} {a b : List Char}
    (h : ∀ c ∈ a, p c = true) : (a ++ b).dropWhile p = b.dropWhile p := by
  induction a with
  | nil => simp
  | cons c cs ih =>
    simp only [List.cons_append, List.dropWhile_cons, h c (by simp), if_true]
    exact ih (fun d hd => h d (by simp [hd]))

/-- Parsing a well-formed tagged scalar with a nonempty newline-free
body recovers the name and the whole body. -/
theorem typed_match_tagged {name body : List Char} (hne : name ≠ [])
    (hw : ∀ c ∈ name, isWordChar c = true) (hbne : body ≠ [])
    (hnl : ∀ c ∈ body, (c != '\n') = true) :
    typed_string_match ('$' :: name ++ ':' :: body) = some (name, some body) := by
  have ht : (name ++ ':' :: body).takeWhile isWordChar = name := by
    rw [takeWhile_append_all hw]
    simp [List.takeWhile_cons, isWordChar]
  have hd : (name ++ ':' :: body).dropWhile isWordChar = ':' :: body := by
    rw [dropWhile_append_all hw]
    simp [List.dropWhile_cons, isWordChar]
  have hb : body.takeWhile (fun c => c != '\n') = body :=
    List.takeWhile_eq_self_iff.mpr hnl
  simp [typed_string_match, ht, hd, hb, hne, hbne]

/-- Parsing a tag whose name is followed by nothing, or by a character
that is neither a word character nor a colon, yields a None body and
ignores that suffix. -/
theorem typed_match_noBody (suffix : List Char) {name : List Char} (hne : name ≠ [])
    (hw : ∀ c ∈ name, isWordChar c = true)
    (hsuf : match suffix with
      | [] => True
      | c :: _ => isWordChar c = false ∧ c ≠ ':') :
    typed_string_match ('$' :: name ++ suffix) = some (name, Option.none) := by
  cases suffix with
  | nil =>
    have ht : name.takeWhile isWordChar = name := List.takeWhile_eq_self_iff.mpr hw
    have hd : name.dropWhile isWordChar = [] := by
      have h2 := List.takeWhile_append_dropWhile isWordChar name
      rw [ht] at h2
      have h3 := congrArg List.length h2
      simp only [List.length_append] at h3
      exact List.eq_nil_of_length_eq_zero (by omega)
    simp only [List.cons_append, List.append_nil, typed_string_match, ht, hd, if_neg hne]
  | cons c rest =>
    obtain ⟨hcw, hcc⟩ := hsuf
    have ht : (name ++ c :: rest).takeWhile isWordChar = name := by
      rw [takeWhile_append_all hw]
      simp [List.takeWhile_cons, hcw]
    have hd : (name ++ c :: rest).dropWhile isWordChar = c :: rest := by
      rw [dropWhile_append_all hw]
      simp [List.dropWhile_cons, hcw]
    simp only [List.cons_append, typed_string_match, ht, hd, if_neg hne]
    split
    · rename_i b hb
      exact absurd (List.head_eq_of_cons_eq hb) hcc
    · rfl

/-- A tag marker followed by no word character fails the pattern. -/
theorem typed_match_malformed {rest : List Char}
    (h : rest.takeWhile isWordChar = []) :
    typed_string_match ('$' :: rest) = Option.none := by
  simp [typed_string_match, h]

theorem from_primitive_escaped (S : Serializer) (s : List Char) :
    from_primitive S (.str ('/' :: s)) = .ok (.str s) := by
  rw [from_primitive]
  simp [startsC, escape_char]

theorem from_primitive_plain (S : Serializer) (s : List Char)
    (h1 : startsC s escape_char = false) (h2 : startsC s tag_char = false) :
    from_primitive S (.str s) = .ok (.str s) := by
  rw [from_primitive]
  simp [h1, h2]

theorem from_primitive_tagged (S : Serializer) (s : List Char) {name : List Char}
    {body : Option (List Char)}
    (h1 : startsC s escape_char = false) (h2 : startsC s tag_char = true)
    (hm : typed_string_match s = some (name, body)) :
    from_primitive S (.str s) =
      (match by_name S name with
       | some dec => .ok (dec (optBody body))
       | Option.none => .error (.unknownCodec (.str name))) := by
  rw [from_primitive]
  simp [h1, h2, hm]

theorem from_primitive_malformed (S : Serializer) (s : List Char)
    (h1 : startsC s escape_char = false) (h2 : startsC s tag_char = true)
    (hm : typed_string_match s = Option.none) :
    from_primitive S (.str s) = .error (.malformedTag s) := by
  rw [from_primitive]
  simp [h1, h2, hm]

theorem from_primitive_int (S : Serializer) (n : Int) :
    from_primitive S (.int n) = .ok (.int n) := by
  rw [from_primitive] <;> exact fun _ h => Value.noConfusion h

theorem from_primitive_float (S : Serializer) (f : List Char) :
    from_primitive S (.float f) = .ok (.float f) := by
  rw [from_primitive] <;> exact fun _ h => Value.noConfusion h

theorem from_primitive_bool (S : Serializer) (b : Bool) :
    from_primitive S (.bool b) = .ok (.bool b) := by
  rw [from_primitive] <;> exact fun _ h => Value.noConfusion h

theorem from_primitive_none (S : Serializer) :
    from_primitive S Value.none = .ok Value.none := by
  rw [from_primitive] <;> exact fun _ h => Value.noConfusion h

theorem from_primitive_custom (S : Serializer) (k : List Char) (fs : List Value) :
    from_primitive S (.custom k fs) = .ok (.custom k fs) := by
  rw [from_primitive] <;> exact fun _ h => Value.noConfusion h

theorem from_primitive_list (S : Serializer) (xs : List Value) :
    from_primitive S (.list xs) = (fromPrimList S xs).map Value.list := by
  rw [from_primitive]

theorem from_primitive_dict_plain (S : Serializer) {kvs : List (Value × Value)}
    (h : lookupD kvs (.str type_key) = Option.none) :
    from_primitive S (.dict kvs) = (fromPrimEntries S kvs).map Value.dict := by
  rw [from_primitive]
  simp [h]

theorem from_primitive_dict_tagged (S : Serializer) {kvs : List (Value × Value)}
    {n : List Char} {dec : Value → Value} {payload : Value}
    (h : lookupD kvs (.str type_key) = some (.str n))
    (hn : by_name S n = some dec)
    (h2 : lookupD kvs (.str value_key) = some payload) :
    from_primitive S (.dict kvs) = (from_primitive S payload).map dec := by
  rw [from_primitive]
  simp only [h, hn]
  split
  · rename_i pl hpl
    rw [h2] at hpl
    cases hpl
    rfl
  · rename_i hnone
    rw [h2] at hnone
    cases hnone

theorem from_primitive_dict_unknown (S : Serializer) {kvs : List (Value × Value)}
    {n : List Char}
    (h : lookupD kvs (.str type_key) = some (.str n))
    (hn : by_name S n = Option.none) :
    from_primitive S (.dict kvs) = .error (.unknownCodec (.str n)) := by
  rw [from_primitive]
  simp [h, hn]

theorem wordName_spec {n : List Char} (h : wordName n = true) :
    n ≠ [] ∧ ∀ c ∈ n, isWordChar c = true := by
  simp only [wordName, Bool.and_eq_true, Bool.not_eq_true', List.all_eq_true] at h
  obtain ⟨h1, h2⟩ := h
  refine ⟨?_, h2⟩
  intro hcontra
  rw [hcontra] at h1
  simp at h1

/-- For a non-container, non-integer value the encode walk runs the leaf
branches. -/
theorem to_primitive_leaf_eq (S : Serializer) (fuel : Nat) (v : Value)
    (hd : typeOf v ≠ .tDict) (hl : typeOf v ≠ .tList) (hi : typeOf v ≠ .tInt) :
    to_primitive S (fuel + 1) v = toPrimLeaf S (to_primitive S fuel) v := by
  cases v <;> first | rfl | exact absurd rfl hd | exact absurd rfl hl | exact absurd rfl hi

/-- Any colon-continued tag with a well-formed name parses to that name
(whatever the pattern makes of the body). -/
theorem typed_match_colon_name {name : List Char} (body : List Char)
    (hne : name ≠ []) (hw : ∀ c ∈ name, isWordChar c = true) :
    ∃ ob, typed_string_match ('$' :: name ++ ':' :: body) = some (name, ob) := by
  have ht : (name ++ ':' :: body).takeWhile isWordChar = name := by
    rw [takeWhile_append_all hw]
    simp [List.takeWhile_cons, isWordChar]
  have hd : (name ++ ':' :: body).dropWhile isWordChar = ':' :: body := by
    rw [dropWhile_append_all hw]
    simp [List.dropWhile_cons, isWordChar]
  by_cases hb : body.takeWhile (fun c => c != '\n') = []
  · exact ⟨Option.none, by simp [typed_string_match, ht, hd, hb, hne]⟩
  · exact ⟨some (body.takeWhile (fun c => c != '\n')),
      by simp [typed_string_match, ht, hd, hb, hne]⟩

/-- C4: a value whose exact runtime kind is int is returned unchanged by
to_primitive, without consulting the registry: this holds for every
serializer, in particular one with a codec of kind int registered
(see Sint above), because the int branch precedes the by-kind lookup. -/
theorem C4_int_fast_path (S : Serializer) (n : Int) (fuel : Nat) :
    to_primitive S (fuel + 1) (.int n) = some (.int n) := rfl

/-- C2: for a value of a registered (non-container, non-int) kind whose
codec encode result is not None, to_primitive recursively transforms the
encode result; a string transform yields the tagged scalar
tag-marker name colon body, any other transform yields the tagged
compound mapping of the type key to the name and the value key to the
transform. -/
theorem C2_registered_encode (S : Serializer) (v : Value) (name : List Char)
    (enc : Value → Value) (fuel : Nat) (p2 : Value)
    (hk : by_kind S (typeOf v) = some (name, enc))
    (hd : typeOf v ≠ .tDict) (hl : typeOf v ≠ .tList) (hi : typeOf v ≠ .tInt)
    (hnn : enc v ≠ Value.none)
    (hrec : to_primitive S fuel (enc v) = some p2) :
    (∀ s2, p2 = .str s2 →
      to_primitive S (fuel + 1) v = some (.str (tag_char :: name ++ ':' :: s2))) ∧
    ((∀ s2, p2 ≠ .str s2) →
      to_primitive S (fuel + 1) v =
        some (.dict [(.str type_key, .str name), (.str value_key, p2)])) := by
  have hbase : to_primitive S (fuel + 1) v = some (tagWrap name p2) := by
    rw [to_primitive_leaf_eq S fuel v hd hl hi]
    simp only [toPrimLeaf, hk]
    revert hnn hrec
    generalize enc v = ev
    intro hnn hrec
    cases ev
    case none => exact absurd rfl hnn
    all_goals (rw [hrec]; rfl)
  constructor
  · intro s2 hs
    subst hs
    rw [hbase]
    rfl
  · intro hns
    rw [hbase]
    cases p2 <;> first | rfl | exact absurd rfl (hns _)

/-- C2 witness: the MyType scenario of the test suite. -/
theorem C2_witness :
    to_primitive Smy 4 myObj = some (.dict
      [(.str type_key, .str (chars "mytype")),
       (.str value_key, .list
         [.str (chars "hello"), .float (chars "3.14"), .list [.str (chars "world")]])]) :=
  (C2_registered_encode Smy myObj (chars "mytype") myCodec.to_primitive 3
    (.list [.str (chars "hello"), .float (chars "3.14"), .list [.str (chars "world")]])
    rfl (by decide) (by decide) (by decide)
    (fun h => Value.noConfusion h) rfl).2 (fun s2 h => Value.noConfusion h)

/-- C3: an unregistered string beginning with the tag or escape marker
is encoded by prepending exactly one escape marker; decoding any string
beginning with the escape marker strips exactly the first character with
no further parsing; composing the two returns the original string. -/
theorem C3_escape_round_trip (S : Serializer) (s : List Char) (fuel : Nat)
    (hreg : by_kind S .tStr = Option.none)
    (h : startsC s tag_char = true ∨ startsC s escape_char = true) :
    to_primitive S (fuel + 1) (.str s) = some (.str ('/' :: s)) ∧
    (∀ t : List Char, startsC t escape_char = true →
      from_primitive S (.str t) = .ok (.str (t.drop 1))) ∧
    from_primitive S (.str ('/' :: s)) = .ok (.str s) := by
  refine ⟨?_, ?_, from_primitive_escaped S s⟩
  · show toPrimLeaf S (to_primitive S fuel) (.str s) = _
    simp only [toPrimLeaf, typeOf, hreg]
    have hcond : (startsC s tag_char || startsC s escape_char) = true := by
      rcases h with h | h
      · rw [h, Bool.true_or]
      · rw [h, Bool.or_true]
    rw [hcond]
    rfl
  · intro t ht
    rw [from_primitive]
    simp [ht]

/-- C3 witness: the literal scenario of the spec. -/
theorem C3_witness :
    to_primitive Semp 1 (.str (chars "$not_a_real_tag")) =
      some (.str ('/' :: chars "$not_a_real_tag")) ∧
    from_primitive Semp (.str ('/' :: chars "$not_a_real_tag")) =
      .ok (.str (chars "$not_a_real_tag")) :=
  ⟨(C3_escape_round_trip Semp (chars "$not_a_real_tag") 0 rfl (Or.inl (by decide))).1,
   (C3_escape_round_trip Semp (chars "$not_a_real_tag") 0 rfl (Or.inl (by decide))).2.2⟩

/-- C5: a string starting with the tag marker whose following characters
contain no leading word character fails the tag pattern, and decoding
raises the malformed-tag error (a ValueError in the source); when such a
string sits inside a larger tree the whole decode fails with it. -/
theorem C5_malformed_tag (S : Serializer) (rest : List Char)
    (h : rest.takeWhile isWordChar = []) :
    from_primitive S (.str ('$' :: rest)) = .error (.malformedTag ('$' :: rest)) ∧
    ∀ xs : List Value,
      from_primitive S (.list (Value.str ('$' :: rest) :: xs)) =
        .error (.malformedTag ('$' :: rest)) := by
  have part1 := from_primitive_malformed S ('$' :: rest) rfl rfl
    (typed_match_malformed h)
  refine ⟨part1, fun xs => ?_⟩
  rw [from_primitive_list, fromPrimList, part1]
  rfl

/-- C5 witness. -/
theorem C5_witness :
    from_primitive Semp (.str ('$' :: chars "-bad")) =
      .error (.malformedTag ('$' :: chars "-bad")) :=
  (C5_malformed_tag Semp (chars "-bad") (by decide)).1

/-- C6: a tagged scalar (with or without body) or a tagged compound
whose name is absent from the by-name index decodes to the
unknown-codec error (a KeyError in the source); the Except embedding
produces no partial result, and for the compound the name lookup
happens before the payload is touched, so the error is independent of
the payload. -/
theorem C6_unknown_codec (S : Serializer) (name : List Char)
    (hw : wordName name = true) (hn : by_name S name = Option.none) :
    from_primitive S (.str ('$' :: name)) = .error (.unknownCodec (.str name)) ∧
    (∀ body : List Char,
      from_primitive S (.str ('$' :: name ++ ':' :: body)) =
        .error (.unknownCodec (.str name))) ∧
    ∀ pl : Value,
      from_primitive S (.dict [(.str type_key, .str name), (.str value_key, pl)]) =
        .error (.unknownCodec (.str name)) := by
  obtain ⟨hne, hwc⟩ := wordName_spec hw
  refine ⟨?_, ?_, ?_⟩
  · have hm : typed_string_match ('$' :: name) = some (name, Option.none) := by
      have h0 := typed_match_noBody [] hne hwc trivial
      simpa using h0
    rw [from_primitive_tagged S ('$' :: name) rfl rfl hm, hn]
  · intro body
    obtain ⟨ob, hm⟩ := typed_match_colon_name body hne hwc
    rw [from_primitive_tagged S ('$' :: name ++ ':' :: body) rfl rfl hm, hn]
  · intro pl
    exact from_primitive_dict_unknown S rfl hn

/-- C6 witness. -/
theorem C6_witness :
    from_primitive Semp (.str ('$' :: chars "uuid")) =
      .error (.unknownCodec (.str (chars "uuid"))) ∧
    from_primitive Semp
        (.dict [(.str type_key, .str (chars "uuid")), (.str value_key, .int 3)]) =
      .error (.unknownCodec (.str (chars "uuid"))) :=
  ⟨(C6_unknown_codec Semp (chars "uuid") (by decide) rfl).1,
   (C6_unknown_codec Semp (chars "uuid") (by decide) rfl).2.2 (.int 3)⟩

/-- C7: a registered (non-container, non-int) kind whose codec encode
returns None is emitted as the no-body tagged scalar, and decoding that
scalar hands a None body to the codec decode, so a value fixed by
decode-of-None round-trips through the no-body form. -/
theorem C7_none_encode_round_trip (S : Serializer) (v : Value) (name : List Char)
    (enc dec : Value → Value) (fuel : Nat)
    (hk : by_kind S (typeOf v) = some (name, enc))
    (hd : typeOf v ≠ .tDict) (hl : typeOf v ≠ .tList) (hi : typeOf v ≠ .tInt)
    (henc : enc v = Value.none)
    (hw : wordName name = true)
    (hbn : by_name S name = some dec)
    (hinv : dec Value.none = v) :
    to_primitive S (fuel + 1) v = some (.str ('$' :: name)) ∧
    from_primitive S (.str ('$' :: name)) = .ok (dec Value.none) ∧
    from_primitive S (.str ('$' :: name)) = .ok v := by
  obtain ⟨hne, hwc⟩ := wordName_spec hw
  have hm : typed_string_match ('$' :: name) = some (name, Option.none) := by
    have h0 := typed_match_noBody [] hne hwc trivial
    simpa using h0
  have hdec : from_primitive S (.str ('$' :: name)) = .ok (dec Value.none) := by
    rw [from_primitive_tagged S ('$' :: name) rfl rfl hm, hbn]
    rfl
  refine ⟨?_, hdec, by rw [hdec, hinv]⟩
  rw [to_primitive_leaf_eq S fuel v hd hl hi]
  simp only [toPrimLeaf, hk, henc]
  rfl

/-- C7 witness: the pure-marker codec. -/
theorem C7_witness :
    to_primitive Smark 1 (.custom (chars "M") []) = some (.str ('$' :: chars "m")) ∧
    from_primitive Smark (.str ('$' :: chars "m")) = .ok (.custom (chars "M") []) :=
  ⟨(C7_none_encode_round_trip Smark (.custom (chars "M") []) (chars "m")
      markerCodec.to_primitive markerCodec.from_primitive 0
      rfl (by decide) (by decide) (by decide) rfl (by decide) rfl rfl).1,
   (C7_none_encode_round_trip Smark (.custom (chars "M") []) (chars "m")
      markerCodec.to_primitive markerCodec.from_primitive 0
      rfl (by decide) (by decide) (by decide) rfl (by decide) rfl rfl).2.2⟩

/-- In the reversed codec list the last codec satisfying the predicate
is found first, provided nothing after it satisfies it. -/
theorem find_reverse_last {p : Codec → Bool} (pre post : List Codec) (c : Codec)
    (hpost : ∀ d ∈ post, p d = false) (hc : p c = true) :
    (pre ++ c :: post).reverse.find? p = some c := by
  rw [List.reverse_append, List.reverse_cons, List.find?_append, List.find?_append]
  have h1 : post.reverse.find? p = Option.none :=
    List.find?_eq_none.mpr (fun x hx => by simp [hpost x (List.mem_reverse.mp hx)])
  rw [h1, List.find?_cons_of_pos _ hc]
  rfl

/-- C8: building a Serializer from a codec sequence containing
duplicates always succeeds (the model's construction is total, matching
the source's dict comprehensions, which never fail), and each index
resolves to the latest codec carrying the looked-up kind or name: the
later entry silently overwrites the earlier ones. -/
theorem C8_later_overwrites (pre post : List Codec) (c : Codec)
    (E : Value → List Char) (D : List Char → Value) :
    ((∀ d ∈ post, d.kind ≠ c.kind) →
      by_kind ⟨pre ++ c :: post, E, D⟩ c.kind = some (c.name, c.to_primitive)) ∧
    ((∀ d ∈ post, d.name ≠ c.name) →
      by_name ⟨pre ++ c :: post, E, D⟩ c.name = some c.from_primitive) := by
  constructor
  · intro h
    unfold by_kind
    rw [find_reverse_last pre post c
      (fun d hd => by simp [h d hd]) (by simp)]
    rfl
  · intro h
    unfold by_name
    rw [find_reverse_last pre post c
      (fun d hd => by simp [h d hd]) (by simp)]
    rfl

/-- C8 witness: two codecs sharing name and kind; both lookups resolve
to the second codec's functions. -/
theorem C8_witness :
    by_kind Sdup codecB.kind = some (codecB.name, codecB.to_primitive) ∧
    by_name Sdup codecB.name = some codecB.from_primitive :=
  ⟨(C8_later_overwrites [codecA] [] codecB (fun _ => []) (fun _ => Value.none)).1
      (fun d hd => absurd hd (List.not_mem_nil d)),
   (C8_later_overwrites [codecA] [] codecB (fun _ => []) (fun _ => Value.none)).2
      (fun d hd => absurd hd (List.not_mem_nil d))⟩

/-- C9: the integer fast path guards only the value walk.  A mapping key
of exact kind int with an int-kind codec registered is pushed through
the codec into forced tagged-scalar string form by filter_dict_keys,
while an integer mapping value passes through unchanged. -/
theorem C9_int_key_asymmetry (S : Serializer) (name : List Char)
    (enc : Value → Value) (k m : Int) (fuel : Nat)
    (hk : by_kind S .tInt = some (name, enc)) :
    filter_dict_keys_enc S (.int k) =
      .str ('$' :: name ++ ':' :: pyStr (enc (.int k))) ∧
    to_primitive S (fuel + 2) (.dict [(.int k, .int m)]) =
      some (.dict [(.str ('$' :: name ++ ':' :: pyStr (enc (.int k))), .int m)]) := by
  have part1 : filter_dict_keys_enc S (.int k) =
      .str (tag_char :: name ++ ':' :: pyStr (enc (.int k))) := by
    simp only [filter_dict_keys_enc, typeOf, hk]
  refine ⟨part1, ?_⟩
  have hval : to_primitive S (fuel + 1) (Value.int m) = some (.int m) := rfl
  show ((toPrimEntries (to_primitive S (fuel + 1)) (filter_dict_keys_enc S)
      [((Value.int k : Value), (Value.int m : Value))]).map Value.dict) = _
  simp [toPrimEntries, part1, hval, tag_char]

/-- C9 witness: key 7 with the int codec becomes the tagged string, the
value 8 stays an integer. -/
theorem C9_witness :
    to_primitive Sint 2 (.dict [(.int 7, .int 8)]) =
      some (.dict [(.str ('$' :: chars "i" ++ ':' :: pyStr (.str (chars "7"))), .int 8)]) :=
  (C9_int_key_asymmetry Sint (chars "i") intCodec.to_primitive 7 8 0 rfl).2

/-- C10 (as stated) is false: the tag pattern's name group is greedy, so
a non-empty suffix that begins with a word character is absorbed into
the parsed name instead of being discarded.  With only a codec named dt
registered, the string composed of the marker, the registered name dt
and the word suffix x decodes with parsed name dtx, which is unknown, so
from_primitive raises the unknown-codec error instead of returning the
decode of a None body. -/
theorem C10_counterexample :
    wordName (chars "dt") = true ∧
    by_name Sdt (chars "dt") = some dtCodec.from_primitive ∧
    chars "x" ≠ [] ∧ startsC (chars "x") ':' = false ∧
    from_primitive Sdt (.str ('$' :: chars "dt" ++ chars "x")) =
      .error (.unknownCodec (.str (chars "dtx"))) := by
  refine ⟨by decide, rfl, by decide, by decide, ?_⟩
  have hm : typed_string_match ('$' :: chars "dt" ++ chars "x") =
      some (chars "dtx", Option.none) := by decide
  rw [from_primitive_tagged Sdt ('$' :: chars "dt" ++ chars "x") rfl rfl hm]
  rfl

/-- C10 (amended): for a string of the form marker, registered name,
then a non-empty suffix whose first character is neither a colon nor a
word character, from_primitive silently discards the suffix and returns
the codec decode applied to a None body. -/
theorem C10_suffix_discarded (S : Serializer) (name : List Char)
    (dec : Value → Value) (c : Char) (rest2 : List Char)
    (hw : wordName name = true)
    (hn : by_name S name = some dec)
    (hcw : isWordChar c = false) (hcc : c ≠ ':') :
    from_primitive S (.str ('$' :: name ++ c :: rest2)) = .ok (dec Value.none) := by
  obtain ⟨hne, hwc⟩ := wordName_spec hw
  have hm := typed_match_noBody (c :: rest2) hne hwc ⟨hcw, hcc⟩
  rw [from_primitive_tagged S ('$' :: name ++ c :: rest2) rfl rfl hm, hn]
  rfl

/-- C10 witness: the dash suffix is discarded and the dt codec decodes a
None body. -/
theorem C10_witness :
    from_primitive Sdt (.str ('$' :: chars "dt" ++ '-' :: chars "junk")) =
      .ok (dtCodec.from_primitive Value.none) :=
  C10_suffix_discarded Sdt (chars "dt") dtCodec.from_primitive '-' (chars "junk")
    (by decide) rfl (by decide) (by decide)

/-- C1 (as stated) is false.  The kind-K codec below has mutually
inverse encode/decode (decode after encode is the identity on every
value of kind K, and encode after decode fixes encode's range), and the
K object with no fields is reachable through a registered kind, yet the
round trip fails: encode yields the empty string, the emitted tagged
scalar marker-c-colon has an empty body, the tag pattern reads an
absent body back, and decode receives None instead of the empty string,
returning None rather than the original object. -/
theorem C1_counterexample :
    MutualInverses SK ∧ Reachable SK (.custom (chars "K") []) ∧
    to_primitive SK 3 (.custom (chars "K") []) = some (.str (chars "$c:")) ∧
    from_primitive SK (.str (chars "$c:")) = .ok Value.none ∧
    Value.none ≠ Value.custom (chars "K") [] := by
  refine ⟨?_, ?_, rfl, ?_, fun h => Value.noConfusion h⟩
  · intro t name enc h
    simp only [by_kind, SK, List.reverse_cons, List.reverse_nil, List.nil_append,
      List.find?] at h
    by_cases hkt : (kCodec.kind == t) = true
    · have ht : kCodec.kind = t := eq_of_beq hkt
      rw [hkt] at h
      simp only [Option.map_some] at h
      obtain ⟨hname, henc⟩ := Prod.mk.injEq .. ▸ (Option.some.injEq .. ▸ h)
      refine ⟨kCodec.from_primitive, by rw [← hname]; rfl, ?_, ?_⟩
      · intro v hv
        rw [← henc]
        rw [← ht] at hv
        cases v <;> simp only [typeOf] at hv
        · exact absurd hv (fun hc => TypeTag.noConfusion hc)
        · exact absurd hv (fun hc => TypeTag.noConfusion hc)
        · exact absurd hv (fun hc => TypeTag.noConfusion hc)
        · exact absurd hv (fun hc => TypeTag.noConfusion hc)
        · exact absurd hv (fun hc => TypeTag.noConfusion hc)
        · exact absurd hv (fun hc => TypeTag.noConfusion hc)
        · exact absurd hv (fun hc => TypeTag.noConfusion hc)
        · rename_i k fs
          have hkk : k = chars "K" := by
            have := TypeTag.tCustom.inj hv
            simpa using this
          subst hkk
          cases fs <;> rfl
      · intro v hv
        rw [← henc]
        rw [← ht] at hv
        cases v <;> simp only [typeOf] at hv
        · exact absurd hv (fun hc => TypeTag.noConfusion hc)
        · exact absurd hv (fun hc => TypeTag.noConfusion hc)
        · exact absurd hv (fun hc => TypeTag.noConfusion hc)
        · exact absurd hv (fun hc => TypeTag.noConfusion hc)
        · exact absurd hv (fun hc => TypeTag.noConfusion hc)
        · exact absurd hv (fun hc => TypeTag.noConfusion hc)
        · exact absurd hv (fun hc => TypeTag.noConfusion hc)
        · rename_i k fs
          have hkk : k = chars "K" := by
            have := TypeTag.tCustom.inj hv
            simpa using this
          subst hkk
          cases fs <;> rfl
    · rw [Bool.not_eq_true] at hkt
      rw [hkt] at h
      simp at h
  · refine Reachable.registered _ ?_
    intro hc
    rw [show by_kind SK (typeOf (Value.custom (chars "K") [])) =
      some (chars "c", kCodec.to_primitive) from rfl] at hc
    cases hc
  · have hm : typed_string_match (chars "$c:") = some (chars "c", Option.none) := by
      decide
    rw [from_primitive_tagged SK (chars "$c:") rfl rfl hm]
    rfl

/-- With no string codec registered, the encode walk leaves a marker-free
string unchanged. -/
theorem to_primitive_plain_str (S : Serializer) (fuel : Nat) {s : List Char}
    (hstr : by_kind S .tStr = Option.none)
    (h1 : startsC s tag_char = false) (h2 : startsC s escape_char = false) :
    to_primitive S (fuel + 1) (.str s) = some (.str s) := by
  show toPrimLeaf S (to_primitive S fuel) (.str s) = _
  simp only [toPrimLeaf, typeOf, hstr, h1, h2]
  rfl

/-- Under the scalar discipline, encoding a value that is neither a
string nor a custom object never produces a string. -/
theorem to_primitive_not_str (S : Serializer) (hscal : ScalarsUnregistered S)
    {q p2 : Value} {fuel : Nat}
    (hq1 : ∀ s, q ≠ Value.str s) (hq2 : ∀ k fs, q ≠ Value.custom k fs)
    (h : to_primitive S fuel q = some p2) : ∀ s2, p2 ≠ Value.str s2 := by
  cases fuel with
  | zero => cases h
  | succ f =>
    cases q with
    | str s => exact absurd rfl (hq1 s)
    | custom k fs => exact absurd rfl (hq2 k fs)
    | int n =>
      rw [show to_primitive S (f + 1) (.int n) = some (.int n) from rfl] at h
      cases h
      exact fun s2 hc => Value.noConfusion hc
    | float fl =>
      rw [to_primitive_leaf_eq S f _ (fun hc => TypeTag.noConfusion hc)
        (fun hc => TypeTag.noConfusion hc) (fun hc => TypeTag.noConfusion hc)] at h
      simp only [toPrimLeaf, typeOf, hscal.2.1] at h
      cases h
      exact fun s2 hc => Value.noConfusion hc
    | bool b =>
      rw [to_primitive_leaf_eq S f _ (fun hc => TypeTag.noConfusion hc)
        (fun hc => TypeTag.noConfusion hc) (fun hc => TypeTag.noConfusion hc)] at h
      simp only [toPrimLeaf, typeOf, hscal.2.2.1] at h
      cases h
      exact fun s2 hc => Value.noConfusion hc
    | none =>
      rw [to_primitive_leaf_eq S f _ (fun hc => TypeTag.noConfusion hc)
        (fun hc => TypeTag.noConfusion hc) (fun hc => TypeTag.noConfusion hc)] at h
      simp only [toPrimLeaf, typeOf, hscal.2.2.2] at h
      cases h
      exact fun s2 hc => Value.noConfusion hc
    | list xs =>
      have h2 : (toPrimList (to_primitive S f) xs).map Value.list = some p2 := h
      rcases hm : toPrimList (to_primitive S f) xs with _ | ps
      · rw [hm] at h2; cases h2
      · rw [hm] at h2
        cases h2
        exact fun s2 hc => Value.noConfusion hc
    | dict kvs =>
      have h2 : (toPrimEntries (to_primitive S f) (filter_dict_keys_enc S) kvs).map
          Value.dict = some p2 := h
      rcases hm : toPrimEntries (to_primitive S f) (filter_dict_keys_enc S) kvs with _ | ps
      · rw [hm] at h2; cases h2
      · rw [hm] at h2
        cases h2
        exact fun s2 hc => Value.noConfusion hc

/-- A non-string transform is wrapped as the tagged compound. -/
theorem tagWrap_not_str {name : List Char} {p2 : Value}
    (h : ∀ s2, p2 ≠ Value.str s2) :
    tagWrap name p2 = .dict [(.str type_key, .str name), (.str value_key, p2)] := by
  cases p2 <;> first | rfl | exact absurd rfl (h _)

/-- Shape of an encoded string mapping key with no string codec
registered: escaped when marker-prefixed, otherwise untouched. -/
theorem filter_key_enc_str (S : Serializer) (s : List Char)
    (hstr : by_kind S .tStr = Option.none) :
    filter_dict_keys_enc S (.str s) =
      .str (if startsC s tag_char || startsC s escape_char then escape_char :: s else s) := by
  simp only [filter_dict_keys_enc, hstr]
  by_cases hcond : (startsC s tag_char || startsC s escape_char) = true
  · rw [hcond]; simp
  · rw [Bool.not_eq_true] at hcond; rw [hcond]; simp

/-- Decoding a mapping key that carries a leading escape marker strips
it. -/
theorem filter_key_dec_escaped (S : Serializer) (s : List Char) :
    filter_dict_keys_dec S (.str (escape_char :: s)) = .ok (.str s) := rfl

/-- Decoding a marker-free string mapping key passes it through. -/
theorem filter_key_dec_plain (S : Serializer) {s : List Char}
    (h1 : startsC s escape_char = false) (h2 : startsC s tag_char = false) :
    filter_dict_keys_dec S (.str s) = .ok (.str s) := by
  simp [filter_dict_keys_dec, h1, h2]

/-- An encoded string key never collides with the reserved type key. -/
theorem enc_key_ne_type_key {s e : List Char}
    (he : e = (if startsC s tag_char || startsC s escape_char then escape_char :: s else s)) :
    beqV (.str e) (.str type_key) = false := by
  by_cases hcond : (startsC s tag_char || startsC s escape_char) = true
  · rw [hcond] at he
    simp only [if_pos] at he
    subst he
    rfl
  · rw [Bool.not_eq_true] at hcond
    rw [hcond] at he
    simp only [Bool.false_eq_true, if_false] at he
    rw [he]
    have hne : s ≠ type_key := by
      intro hc
      subst hc
      have : startsC type_key tag_char = true := rfl
      rw [Bool.or_eq_false_iff] at hcond
      rw [this] at hcond
      exact Bool.noConfusion hcond.1
    show (s == type_key) = false
    exact beq_eq_false_iff_ne.mpr hne

/-- Round trip of one registered node whose encode output q is neither a
string nor a custom object: the transform of q is wrapped as a tagged
compound, the decode walk looks the name up, recursively decodes the
payload (given as the inner round trip hP), and the codec decode
restores the object. -/
theorem rt_registered_nonstr (S : Serializer) (hscal : ScalarsUnregistered S)
    {f : Nat} {q p : Value} {name : List Char} {dec : Value → Value}
    {k : List Char} {fs : List Value}
    (hP : ∀ x2 p2, Good S x2 → to_primitive S f x2 = some p2 →
      from_primitive S p2 = .ok x2)
    (hq1 : ∀ s, q ≠ Value.str s) (hq2 : ∀ k2 fs2, q ≠ Value.custom k2 fs2)
    (hgq : Good S q)
    (hbn : by_name S name = some dec)
    (hinv : dec q = .custom k fs)
    (h : (to_primitive S f q).map (tagWrap name) = some p) :
    from_primitive S p = .ok (.custom k fs) := by
  rcases hto : to_primitive S f q with _ | p2
  · rw [hto] at h; exact Option.noConfusion h
  · rw [hto] at h
    have h2 : some (tagWrap name p2) = some p := h
    cases h2
    have hnstr := to_primitive_not_str S hscal hq1 hq2 hto
    rw [tagWrap_not_str hnstr]
    have hlk1 : lookupD [(.str type_key, .str name), (.str value_key, p2)]
        (.str type_key) = some (.str name) := rfl
    have hlk2 : lookupD [(.str type_key, .str name), (.str value_key, p2)]
        (.str value_key) = some p2 := rfl
    rw [from_primitive_dict_tagged S hlk1 hbn hlk2]
    rw [hP q p2 hgq hto]
    show Except.ok (dec q) = _
    rw [hinv]

/-- The three-part round-trip induction on fuel: values, list elements,
and mapping entries (for entries, additionally: no transformed key
collides with the reserved type key). -/
theorem round_trip_aux (S : Serializer) (hscal : ScalarsUnregistered S) :
    ∀ fuel : Nat,
    (∀ x p, Good S x → to_primitive S fuel x = some p →
      from_primitive S p = .ok x) ∧
    (∀ xs ps, (∀ x ∈ xs, Good S x) →
      toPrimList (to_primitive S fuel) xs = some ps →
      fromPrimList S ps = .ok xs) ∧
    (∀ kvs ps, (∀ kv ∈ kvs, ∃ s, kv.1 = Value.str s) → (∀ kv ∈ kvs, Good S kv.2) →
      toPrimEntries (to_primitive S fuel) (filter_dict_keys_enc S) kvs = some ps →
      fromPrimEntries S ps = .ok kvs ∧ lookupD ps (.str type_key) = Option.none) := by
  intro fuel
  induction fuel with
  | zero =>
    refine ⟨?_, ?_, ?_⟩
    · intro x p hx h
      cases h
    · intro xs ps hall h
      cases xs with
      | nil =>
        rw [toPrimList] at h
        cases h
        rw [fromPrimList]
      | cons x xs =>
        rw [toPrimList] at h
        exact Option.noConfusion h
    · intro kvs ps hk hg h
      cases kvs with
      | nil =>
        rw [toPrimEntries] at h
        cases h
        exact ⟨by rw [fromPrimEntries], rfl⟩
      | cons kv rest =>
        obtain ⟨k1, v1⟩ := kv
        rw [toPrimEntries] at h
        exact Option.noConfusion h
  | succ f ih =>
    obtain ⟨ihP, ihL, ihE⟩ := ih
    have Pstep : ∀ x p, Good S x → to_primitive S (f + 1) x = some p →
        from_primitive S p = .ok x := by
      intro x p hx h
      cases hx with
      | str s =>
        rw [to_primitive_leaf_eq S f _ (fun hc => TypeTag.noConfusion hc)
          (fun hc => TypeTag.noConfusion hc) (fun hc => TypeTag.noConfusion hc)] at h
        simp only [toPrimLeaf, typeOf, hscal.1] at h
        by_cases hcond : (startsC s tag_char || startsC s escape_char) = true
        · rw [hcond] at h
          simp only [if_true] at h
          cases h
          exact from_primitive_escaped S s
        · rw [Bool.not_eq_true] at hcond
          rw [hcond] at h
          simp only [Bool.false_eq_true, if_false] at h
          cases h
          obtain ⟨h1, h2⟩ := Bool.or_eq_false_iff.mp hcond
          exact from_primitive_plain S s h2 h1
      | int n =>
        rw [show to_primitive S (f + 1) (.int n) = some (.int n) from rfl] at h
        cases h
        exact from_primitive_int S n
      | float fl =>
        rw [to_primitive_leaf_eq S f _ (fun hc => TypeTag.noConfusion hc)
          (fun hc => TypeTag.noConfusion hc) (fun hc => TypeTag.noConfusion hc)] at h
        simp only [toPrimLeaf, typeOf, hscal.2.1] at h
        cases h
        exact from_primitive_float S fl
      | bool b =>
        rw [to_primitive_leaf_eq S f _ (fun hc => TypeTag.noConfusion hc)
          (fun hc => TypeTag.noConfusion hc) (fun hc => TypeTag.noConfusion hc)] at h
        simp only [toPrimLeaf, typeOf, hscal.2.2.1] at h
        cases h
        exact from_primitive_bool S b
      | none =>
        rw [to_primitive_leaf_eq S f _ (fun hc => TypeTag.noConfusion hc)
          (fun hc => TypeTag.noConfusion hc) (fun hc => TypeTag.noConfusion hc)] at h
        simp only [toPrimLeaf, typeOf, hscal.2.2.2] at h
        cases h
        exact from_primitive_none S
      | unregCustom k fs hreg =>
        rw [to_primitive_leaf_eq S f _ (fun hc => TypeTag.noConfusion hc)
          (fun hc => TypeTag.noConfusion hc) (fun hc => TypeTag.noConfusion hc)] at h
        simp only [toPrimLeaf, typeOf, hreg] at h
        cases h
        exact from_primitive_custom S k fs
      | list xs hall =>
        have h2 : (toPrimList (to_primitive S f) xs).map Value.list = some p := h
        rcases hm : toPrimList (to_primitive S f) xs with _ | ps
        · rw [hm] at h2; exact Option.noConfusion h2
        · rw [hm] at h2
          have h3 : some (Value.list ps) = some p := h2
          cases h3
          rw [from_primitive_list, ihL xs ps hall hm]
          rfl
      | dict kvs hkeys hgoods =>
        have h2 : (toPrimEntries (to_primitive S f) (filter_dict_keys_enc S) kvs).map
            Value.dict = some p := h
        rcases hm : toPrimEntries (to_primitive S f) (filter_dict_keys_enc S) kvs
          with _ | ps
        · rw [hm] at h2; exact Option.noConfusion h2
        · rw [hm] at h2
          have h3 : some (Value.dict ps) = some p := h2
          cases h3
          obtain ⟨ih1, ih2⟩ := ihE kvs ps hkeys hgoods hm
          rw [from_primitive_dict_plain S ih2, ih1]
          rfl
      | registered k fs name enc dec hk hw hbn hinv hsafe hgood =>
        obtain ⟨hne, hwc⟩ := wordName_spec hw
        rw [to_primitive_leaf_eq S f _ (fun hc => TypeTag.noConfusion hc)
          (fun hc => TypeTag.noConfusion hc) (fun hc => TypeTag.noConfusion hc)] at h
        simp only [toPrimLeaf, typeOf, hk] at h
        revert hinv hsafe hgood h
        generalize enc (Value.custom k fs) = ev
        intro hinv hsafe hgood h
        cases ev with
        | none =>
          have h3 : some (Value.str (tag_char :: name)) = some p := h
          cases h3
          have hm : typed_string_match ('$' :: name) = some (name, Option.none) := by
            have h0 := typed_match_noBody [] hne hwc trivial
            simpa using h0
          show from_primitive S (.str ('$' :: name)) = _
          rw [from_primitive_tagged S ('$' :: name) rfl rfl hm, hbn]
          show Except.ok (dec Value.none) = _
          rw [hinv]
        | str s =>
          simp only [safeBody, Bool.and_eq_true, Bool.not_eq_true'] at hsafe
          obtain ⟨⟨⟨hsne, hs1⟩, hs2⟩, hs3⟩ := hsafe
          cases f with
          | zero =>
            exact Option.noConfusion h
          | succ g =>
            have h4 : (to_primitive S (g + 1) (.str s)).map (tagWrap name) = some p := h
            rw [to_primitive_plain_str S g hscal.1 hs1 hs2] at h4
            have h3 : some (tagWrap name (.str s)) = some p := h4
            cases h3
            have hbne : s ≠ [] := by
              intro hc
              subst hc
              exact Bool.noConfusion hsne
            have hnl : ∀ c ∈ s, (c != '\n') = true := List.all_eq_true.mp hs3
            have hm := typed_match_tagged hne hwc hbne hnl
            show from_primitive S (.str ('$' :: name ++ ':' :: s)) = _
            rw [from_primitive_tagged S ('$' :: name ++ ':' :: s) rfl rfl hm, hbn]
            show Except.ok (dec (Value.str s)) = _
            rw [hinv]
        | custom k2 fs2 => simp [safeBody] at hsafe
        | int n =>
          exact rt_registered_nonstr S hscal ihP (fun s hc => Value.noConfusion hc)
            (fun k2 fs2 hc => Value.noConfusion hc)
            (hgood (fun hc => Value.noConfusion hc)) hbn hinv h
        | float fl =>
          exact rt_registered_nonstr S hscal ihP (fun s hc => Value.noConfusion hc)
            (fun k2 fs2 hc => Value.noConfusion hc)
            (hgood (fun hc => Value.noConfusion hc)) hbn hinv h
        | bool b =>
          exact rt_registered_nonstr S hscal ihP (fun s hc => Value.noConfusion hc)
            (fun k2 fs2 hc => Value.noConfusion hc)
            (hgood (fun hc => Value.noConfusion hc)) hbn hinv h
        | list xs =>
          exact rt_registered_nonstr S hscal ihP (fun s hc => Value.noConfusion hc)
            (fun k2 fs2 hc => Value.noConfusion hc)
            (hgood (fun hc => Value.noConfusion hc)) hbn hinv h
        | dict kvs =>
          exact rt_registered_nonstr S hscal ihP (fun s hc => Value.noConfusion hc)
            (fun k2 fs2 hc => Value.noConfusion hc)
            (hgood (fun hc => Value.noConfusion hc)) hbn hinv h
    have Lstep : ∀ xs ps, (∀ x ∈ xs, Good S x) →
        toPrimList (to_primitive S (f + 1)) xs = some ps →
        fromPrimList S ps = .ok xs := by
      intro xs
      induction xs with
      | nil =>
        intro ps hall h
        rw [toPrimList] at h
        cases h
        rw [fromPrimList]
      | cons x xs ihx =>
        intro ps hall h
        rw [toPrimList] at h
        rcases hx0 : to_primitive S (f + 1) x with _ | y
        · rw [hx0] at h; exact Option.noConfusion h
        · rw [hx0] at h
          rcases hxs : toPrimList (to_primitive S (f + 1)) xs with _ | ys
          · rw [hxs] at h; exact Option.noConfusion h
          · rw [hxs] at h
            have h2 : some (y :: ys) = some ps := h
            cases h2
            rw [fromPrimList, Pstep x y (hall x (by simp)) hx0,
              ihx ys (fun z hz => hall z (by simp [hz])) hxs]
            rfl
    have Estep : ∀ kvs ps, (∀ kv ∈ kvs, ∃ s, kv.1 = Value.str s) →
        (∀ kv ∈ kvs, Good S kv.2) →
        toPrimEntries (to_primitive S (f + 1)) (filter_dict_keys_enc S) kvs = some ps →
        fromPrimEntries S ps = .ok kvs ∧ lookupD ps (.str type_key) = Option.none := by
      intro kvs
      induction kvs with
      | nil =>
        intro ps hk hg h
        rw [toPrimEntries] at h
        cases h
        exact ⟨by rw [fromPrimEntries], rfl⟩
      | cons kv rest ihkv =>
        intro ps hk hg h
        obtain ⟨k1, v1⟩ := kv
        obtain ⟨s, hs⟩ := hk (k1, v1) (by simp)
        simp only at hs
        subst hs
        rw [toPrimEntries] at h
        rcases hv0 : to_primitive S (f + 1) v1 with _ | v2
        · rw [hv0] at h; exact Option.noConfusion h
        · rw [hv0] at h
          rcases hrest : toPrimEntries (to_primitive S (f + 1))
              (filter_dict_keys_enc S) rest with _ | ps2
          · rw [hrest] at h; exact Option.noConfusion h
          · rw [hrest] at h
            have h2 : some ((filter_dict_keys_enc S (.str s), v2) :: ps2) = some ps := h
            cases h2
            obtain ⟨ih1, ih2⟩ := ihkv ps2 (fun z hz => hk z (by simp [hz]))
              (fun z hz => hg z (by simp [hz])) hrest
            have hkey := filter_key_enc_str S s hscal.1
            constructor
            · rw [fromPrimEntries]
              have hkd : filter_dict_keys_dec S (filter_dict_keys_enc S (.str s)) =
                  .ok (.str s) := by
                rw [hkey]
                by_cases hcond : (startsC s tag_char || startsC s escape_char) = true
                · rw [if_pos hcond]
                  exact filter_key_dec_escaped S s
                · rw [Bool.not_eq_true] at hcond
                  rw [hcond]
                  simp only [Bool.false_eq_true, if_false]
                  obtain ⟨hc1, hc2⟩ := Bool.or_eq_false_iff.mp hcond
                  exact filter_key_dec_plain S hc2 hc1
              rw [hkd, Pstep v1 v2 (hg (Value.str s, v1) (by simp)) hv0, ih1]
              rfl
            · rw [lookupD, hkey, enc_key_ne_type_key rfl]
              simp only [Bool.false_eq_true, if_false]
              exact ih2
    exact ⟨Pstep, Lstep, Estep⟩

/-- C1 (amended): the counterexample C1_counterexample forces conditions
on codec encode outputs beyond mutual inversion.  For a serializer whose
registered kinds are custom classes (scalar kinds unregistered), whose
codec names are nonempty word-character strings, whose decodes invert
encodes node by node, and whose encode outputs stay inside the same
vocabulary with a safe top level (never a bare custom; a string output
only if nonempty, newline-free and not marker-prefixed), every
terminating encode of a vocabulary value decodes back to a deep-equal
value, mapping insertion order preserved by the entry-by-entry walk. -/
theorem C1_round_trip_amended (S : Serializer) (hscal : ScalarsUnregistered S)
    (x : Value) (hx : Good S x) (fuel : Nat) (p : Value)
    (h : to_primitive S fuel x = some p) :
    from_primitive S p = .ok x :=
  (round_trip_aux S hscal fuel).1 x p hx h

/-- The MyType object of the test suite is in the round-trip
vocabulary. -/
theorem good_myObj : Good Smy myObj := by
  have hfields : Good Smy (.list [.str (chars "hello"), .float (chars "3.14"),
      .list [.str (chars "world")]]) := by
    refine Good.list _ ?_
    intro z hz
    simp only [List.mem_cons, List.not_mem_nil, or_false] at hz
    rcases hz with rfl | rfl | rfl
    · exact Good.str _
    · exact Good.float _
    · refine Good.list _ ?_
      intro w hw
      simp only [List.mem_cons, List.not_mem_nil, or_false] at hw
      subst hw
      exact Good.str _
  exact Good.registered (chars "MyType")
    [.str (chars "hello"), .float (chars "3.14"), .list [.str (chars "world")]]
    (chars "mytype") myCodec.to_primitive myCodec.from_primitive
    rfl (by decide) rfl rfl rfl (fun _ => hfields)

/-- C1 witness: the tagged-compound primitive of the MyType scenario
decodes back to the original object. -/
theorem C1_witness :
    from_primitive Smy (.dict [(.str type_key, .str (chars "mytype")),
      (.str value_key, .list [.str (chars "hello"), .float (chars "3.14"),
        .list [.str (chars "world")]])]) = .ok myObj :=
  C1_round_trip_amended Smy ⟨rfl, rfl, rfl, rfl⟩ myObj good_myObj 4
    (.dict [(.str type_key, .str (chars "mytype")),
      (.str value_key, .list [.str (chars "hello"), .float (chars "3.14"),
        .list [.str (chars "world")]])]) rfl
